import Mathlib

/-!
Verification development for the WearableCollectionTutorial repository.

The repository's structured logic lives in a synchronized multi-track
viewer (`sensorplot`), a manual annotation loop (`annotate`), a camera
transfer utility (`autographer`), and the notebook
`prac2-data-annotation.ipynb` that drives them.  Python strings are
embedded as `List Char`; Python `datetime` values as a record of numeric
fields; fallible operations return `Option`.
-/

/-- Numeric value of a digit character; `'0'` has code point 48. -/
def charDigit (c : Char) : Nat := c.toNat - 48

/-- Test for an ASCII digit character (code points 48 through 57). -/
def isDig (c : Char) : Bool := decide (48 ≤ c.toNat) && decide (c.toNat ≤ 57)

/-- Value of a most-significant-first list of digit characters. -/
def digitsVal : List Char → Nat
  | [] => 0
  | c :: cs => charDigit c * 10 ^ cs.length + digitsVal cs

/-- Calendar timestamp, as produced by parsing `"%Y%m%d_%H%M%S"`. -/
structure Timestamp where
  year : Nat
  month : Nat
  day : Nat
  hour : Nat
  minute : Nat
  second : Nat
deriving DecidableEq

/-- Gregorian leap-year test, as used by Python's `datetime` validation. -/
def isLeapYear (y : Nat) : Bool := (y % 4 == 0 && y % 100 != 0) || y % 400 == 0

/-- Number of days in a month, as used by Python's `datetime` validation. -/
def daysInMonth (y m : Nat) : Nat :=
  if m = 2 then (if isLeapYear y then 29 else 28)
  else if m = 4 ∨ m = 6 ∨ m = 9 ∨ m = 11 then 30 else 31

/-- Shape check for the fixed format `"%Y%m%d_%H%M%S"`: fifteen characters,
digits in the eight date positions and the six time positions, an
underscore between them. -/
def timeFormatOk (t : List Char) : Bool :=
  match t with
  | [y1, y2, y3, y4, m1, m2, d1, d2, u, h1, h2, n1, n2, s1, s2] =>
      isDig y1 && isDig y2 && isDig y3 && isDig y4
        && isDig m1 && isDig m2 && isDig d1 && isDig d2
        && (u == '_')
        && isDig h1 && isDig h2 && isDig n1 && isDig n2 && isDig s1 && isDig s2
  | _ => false

/-- Value of an `n`-digit field starting at position `i`. -/
def fieldVal (t : List Char) (i n : Nat) : Nat := digitsVal ((t.drop i).take n)

/-- Canonical fixed-width reading of `"%Y%m%d_%H%M%S"`: exactly the
zero-padded fifteen-character shape that the camera's filenames use,
together with `datetime`'s range validation of the month, day (against
the month and leap year), hour, minute and second.  CPython's
`strptime` accepts a strictly larger set: its field patterns have
flexible widths (see `strptimePy` below for the faithful grammar), and
it additionally rejects year 0.  The sort-order development below works
over this canonical region, where the two readings agree. -/
def parseTimestamp (t : List Char) : Option Timestamp :=
  if timeFormatOk t then
    let y := fieldVal t 0 4
    let mo := fieldVal t 4 2
    let d := fieldVal t 6 2
    let h := fieldVal t 9 2
    let mi := fieldVal t 11 2
    let s := fieldVal t 13 2
    if 1 ≤ mo ∧ mo ≤ 12 ∧ 1 ≤ d ∧ d ≤ daysInMonth y mo ∧ h ≤ 23 ∧ mi ≤ 59 ∧ s ≤ 59
    then some ⟨y, mo, d, h, mi, s⟩ else none
  else none

/-- Canonical well-formed timestamp substring: an eight-digit date
block, an underscore, a six-digit time block, with all fields inside
the ranges that `datetime` accepts.  This is the zero-padded shape the
camera's filenames embed; it neither includes the flexible-width
strings that `strptime` additionally accepts (see `strptimePy`) nor
requires year at least 1. -/
def matchesFormat (t : List Char) : Prop :=
  ∃ a b, t = a ++ '_' :: b ∧ a.length = 8 ∧ b.length = 6 ∧
    (∀ c ∈ a, isDig c = true) ∧ (∀ c ∈ b, isDig c = true) ∧
    1 ≤ digitsVal ((a.drop 4).take 2) ∧ digitsVal ((a.drop 4).take 2) ≤ 12 ∧
    1 ≤ digitsVal (a.drop 6) ∧
    digitsVal (a.drop 6) ≤ daysInMonth (digitsVal (a.take 4)) (digitsVal ((a.drop 4).take 2)) ∧
    digitsVal (b.take 2) ≤ 23 ∧
    digitsVal ((b.drop 2).take 2) ≤ 59 ∧
    digitsVal (b.drop 4) ≤ 59

/-- Embedding of the notebook's timestamp slice `path.parts[-1][17:32]`:
Python slicing keeps the characters at indices 17 through 31 and silently
truncates when the string is shorter. -/
def tsSlice (fname : List Char) : List Char := (fname.drop 17).take 15

/-- Extraction of one path's timestamp at the canonical fixed-width
reading: slice the filename at `[17:32]` and apply `parseTimestamp`.
The extraction under `strptime`'s full flexible grammar is
`get_img_time_py` below. -/
def get_img_time (fname : List Char) : Option Timestamp := parseTimestamp (tsSlice fname)

/-- Extraction over a list of paths at the canonical reading; a single
parse failure aborts the whole list comprehension, as the uncaught
`ValueError` does in Python. -/
def get_img_times (paths : List (List Char)) : Option (List Timestamp) :=
  paths.mapM get_img_time

/-- Ordered search: try each candidate in order and return the first
one on which the continuation succeeds.  This is exactly the ordered
alternation with backtracking of a regular-expression engine. -/
def firstSome {α β : Type} (xs : List α) (f : α → Option β) : Option β :=
  match xs with
  | [] => none
  | x :: rest =>
      match f x with
      | some b => some b
      | none => firstSome rest f

/-- Candidates of CPython's `%Y` pattern `\d\d\d\d`: exactly four
digits, in regex order. -/
def altY : List Char → List (Nat × List Char)
  | c1 :: c2 :: c3 :: c4 :: r =>
      if isDig c1 = true ∧ isDig c2 = true ∧ isDig c3 = true ∧ isDig c4 = true then
        [(((charDigit c1 * 10 + charDigit c2) * 10 + charDigit c3) * 10 + charDigit c4, r)]
      else []
  | _ => []

/-- Candidates of CPython's `%m` pattern `1[0-2]|0[1-9]|[1-9]`, in
regex order. -/
def altM : List Char → List (Nat × List Char)
  | c1 :: c2 :: r =>
      (if c1.toNat = 49 ∧ 48 ≤ c2.toNat ∧ c2.toNat ≤ 50 then [(10 + charDigit c2, r)] else [])
        ++ (if c1.toNat = 48 ∧ 49 ≤ c2.toNat ∧ c2.toNat ≤ 57 then [(charDigit c2, r)] else [])
        ++ (if 49 ≤ c1.toNat ∧ c1.toNat ≤ 57 then [(charDigit c1, c2 :: r)] else [])
  | [c1] => if 49 ≤ c1.toNat ∧ c1.toNat ≤ 57 then [(charDigit c1, [])] else []
  | [] => []

/-- Candidates of CPython's `%d` pattern `3[01]|[12]\d|0[1-9]|[1-9]`,
in regex order. -/
def altD : List Char → List (Nat × List Char)
  | c1 :: c2 :: r =>
      (if c1.toNat = 51 ∧ (c2.toNat = 48 ∨ c2.toNat = 49) then [(30 + charDigit c2, r)] else [])
        ++ (if (c1.toNat = 49 ∨ c1.toNat = 50) ∧ isDig c2 = true then
              [(charDigit c1 * 10 + charDigit c2, r)] else [])
        ++ (if c1.toNat = 48 ∧ 49 ≤ c2.toNat ∧ c2.toNat ≤ 57 then [(charDigit c2, r)] else [])
        ++ (if 49 ≤ c1.toNat ∧ c1.toNat ≤ 57 then [(charDigit c1, c2 :: r)] else [])
  | [c1] => if 49 ≤ c1.toNat ∧ c1.toNat ≤ 57 then [(charDigit c1, [])] else []
  | [] => []

/-- Candidates of CPython's `%H` pattern `2[0-3]|[0-1]\d|\d`, in regex
order. -/
def altH : List Char → List (Nat × List Char)
  | c1 :: c2 :: r =>
      (if c1.toNat = 50 ∧ 48 ≤ c2.toNat ∧ c2.toNat ≤ 51 then [(20 + charDigit c2, r)] else [])
        ++ (if (c1.toNat = 48 ∨ c1.toNat = 49) ∧ isDig c2 = true then
              [(charDigit c1 * 10 + charDigit c2, r)] else [])
        ++ (if isDig c1 = true then [(charDigit c1, c2 :: r)] else [])
  | [c1] => if isDig c1 = true then [(charDigit c1, [])] else []
  | [] => []

/-- Candidates of CPython's `%M` pattern `[0-5]\d|\d`, in regex order. -/
def altMin : List Char → List (Nat × List Char)
  | c1 :: c2 :: r =>
      (if 48 ≤ c1.toNat ∧ c1.toNat ≤ 53 ∧ isDig c2 = true then
          [(charDigit c1 * 10 + charDigit c2, r)] else [])
        ++ (if isDig c1 = true then [(charDigit c1, c2 :: r)] else [])
  | [c1] => if isDig c1 = true then [(charDigit c1, [])] else []
  | [] => []

/-- Candidates of CPython's `%S` pattern `6[01]|[0-5]\d|\d`, in regex
order. -/
def altS : List Char → List (Nat × List Char)
  | c1 :: c2 :: r =>
      (if c1.toNat = 54 ∧ (c2.toNat = 48 ∨ c2.toNat = 49) then [(60 + charDigit c2, r)] else [])
        ++ (if 48 ≤ c1.toNat ∧ c1.toNat ≤ 53 ∧ isDig c2 = true then
              [(charDigit c1 * 10 + charDigit c2, r)] else [])
        ++ (if isDig c1 = true then [(charDigit c1, c2 :: r)] else [])
  | [c1] => if isDig c1 = true then [(charDigit c1, [])] else []
  | [] => []

/-- Leftmost match of the compiled pattern
`\d\d\d\d (1[0-2]|0[1-9]|[1-9]) (3[01]|[12]\d|0[1-9]|[1-9]) _
(2[0-3]|[0-1]\d|\d) ([0-5]\d|\d) (6[01]|[0-5]\d|\d)` (written here with
spaces for readability only) against a prefix of the input, with the
engine's depth-first ordered-alternation backtracking; returns the six
field values and the unconsumed remainder, as `re.match` does inside
`_strptime`. -/
def matchFmt (cs : List Char) : Option ((Nat × Nat × Nat × Nat × Nat × Nat) × List Char) :=
  firstSome (altY cs) fun yr =>
    firstSome (altM yr.2) fun mr =>
      firstSome (altD mr.2) fun dr =>
        match dr.2 with
        | '_' :: r4 =>
            firstSome (altH r4) fun hr =>
              firstSome (altMin hr.2) fun nr =>
                firstSome (altS nr.2) fun sr =>
                  some ((yr.1, mr.1, dr.1, hr.1, nr.1, sr.1), sr.2)
        | _ => none

/-- Faithful embedding of `datetime.strptime(s, "%Y%m%d_%H%M%S")`:
match the compiled pattern, then, as `_strptime` does, fail if
unconverted data remains, and fail where the `datetime` constructor
raises (year at least 1, day within the month, second at most 59; the
`%S` pattern itself admits 60 and 61). -/
def strptimePy (cs : List Char) : Option Timestamp :=
  match matchFmt cs with
  | none => none
  | some ((y, mo, d, h, mi, s), rest) =>
      if rest = [] then
        if 1 ≤ y ∧ d ≤ daysInMonth y mo ∧ s ≤ 59 then some ⟨y, mo, d, h, mi, s⟩
        else none
      else none

/-- Embedding of the body of `get_img_times` for one path under the
faithful `strptime`: slice the filename at `[17:32]` and parse it with
CPython's flexible grammar for `"%Y%m%d_%H%M%S"`. -/
def get_img_time_py (fname : List Char) : Option Timestamp := strptimePy (tsSlice fname)

/-- Lexicographic strict comparison of character lists by code point,
embedding Python string `<`. -/
def lexLt : List Char → List Char → Bool
  | _, [] => false
  | [], _ :: _ => true
  | a :: as, b :: bs =>
    if a.toNat < b.toNat then true
    else if b.toNat < a.toNat then false
    else lexLt as bs

/-- Reflexive lexicographic comparison, embedding Python string `<=`. -/
def pathLe (p q : List Char) : Bool := !(lexLt q p)

/-- Insertion step of sorting (path, timestamp) pairs by path, embedding
the key comparison of `tuples.sort(key=lambda x: x[0])`. -/
def insertPair (x : List Char × Timestamp) :
    List (List Char × Timestamp) → List (List Char × Timestamp)
  | [] => [x]
  | y :: ys => if pathLe x.1 y.1 then x :: y :: ys else y :: insertPair x ys

/-- Sorting of (path, timestamp) pairs by path, embedding
`tuples.sort(key=lambda x: x[0])` in the notebook. -/
def sortByPath : List (List Char × Timestamp) → List (List Char × Timestamp)
  | [] => []
  | x :: xs => insertPair x (sortByPath xs)

/-- Chronological key of a timestamp: fields packed most significant
first, so key order is time order. -/
def tsKey (t : Timestamp) : Nat :=
  ((((t.year * 100 + t.month) * 100 + t.day) * 100 + t.hour) * 100 + t.minute) * 100
    + t.second

/-- Modelled from the spec: the viewer's stream list (`sensorplot.py` is
not in the repository snapshot) is a closed set of named, independently
timestamped stream variants: image paths, scalar readings, 3-axis
vectors, and text labels.  Timestamps are integers on a shared time
axis. -/
inductive SensorData where
  | image (name : String) (entries : List (Int × String))
  | scalar (name : String) (entries : List (Int × Int))
  | vector (name : String) (entries : List (Int × (Int × Int × Int)))
  | text (name : String) (entries : List (Int × String))
deriving DecidableEq

/-- Timestamps of a stream's entries, in stream order. -/
def streamTimes : SensorData → List Int
  | .image _ es => es.map Prod.fst
  | .scalar _ es => es.map Prod.fst
  | .vector _ es => es.map Prod.fst
  | .text _ es => es.map Prod.fst

/-- One rendered element of a panel: a thumbnail for an image entry, a
point of a line plot for a scalar entry, a point of a multi-line plot
for a vector entry, or a text caption for a label entry. -/
inductive RenderedEntry where
  | thumbnail (t : Int) (path : String)
  | point (t : Int) (v : Int)
  | polyline (t : Int) (v : Int × Int × Int)
  | caption (t : Int) (txt : String)
deriving DecidableEq

/-- Membership of a timestamp in the half-open window
`[start, start + dur)`. -/
def inWindow (start dur t : Int) : Bool := decide (start ≤ t) && decide (t < start + dur)

/-- Modelled from the spec: for one stream, `plot_window` selects the
subset of entries whose timestamp falls in `[start, start + dur)` and
renders one element per selected entry. -/
def renderPanel (start dur : Int) : SensorData → List RenderedEntry
  | .image _ es =>
      (es.filter fun e => inWindow start dur e.1).map fun e => .thumbnail e.1 e.2
  | .scalar _ es =>
      (es.filter fun e => inWindow start dur e.1).map fun e => .point e.1 e.2
  | .vector _ es =>
      (es.filter fun e => inWindow start dur e.1).map fun e => .polyline e.1 e.2
  | .text _ es =>
      (es.filter fun e => inWindow start dur e.1).map fun e => .caption e.1 e.2

/-- Modelled from the spec: `SensorPlot.plot_window` renders the chosen
window across all streams, producing one stacked panel per stream and
mutating nothing. -/
def plot_window (streams : List SensorData) (start dur : Int) : List (List RenderedEntry) :=
  streams.map (renderPanel start dur)

/-- Annotation slot: `none` is the unset marker, `some l` a label. -/
abbrev Ann := Option String

/-- Serialization of one annotation slot into the persisted array format:
a tag character distinguishes set labels from the unset marker. -/
def encodeAnn : Ann → String
  | none => "U"
  | some l => String.mk ('L' :: l.data)

/-- Deserialization of one annotation slot from the persisted format. -/
def decodeAnn (s : String) : Ann :=
  match s.data with
  | 'L' :: cs => some (String.mk cs)
  | _ => none

/-- Modelled from the spec: flushing writes the annotation array as a
serialized array of label strings and unset markers, one per image. -/
def serializeAnns (anns : List Ann) : List String := anns.map encodeAnn

/-- Modelled from the spec: loading reads back the same serialized array
format (`np.load` of `labels.npy`). -/
def loadAnns (file : List String) : List Ann := file.map decodeAnn

/-- Lower-casing of an ASCII code point, for case-insensitive command
matching. -/
def lowerNat (n : Nat) : Nat := if 65 ≤ n ∧ n ≤ 90 then n + 32 else n

/-- Case-insensitive equality of character lists by code point. -/
def eqIgnoreCase : List Char → List Char → Bool
  | [], [] => true
  | a :: as, b :: bs => (lowerNat a.toNat == lowerNat b.toNat) && eqIgnoreCase as bs
  | _, _ => false

/-- Modelled from the spec: annotation-loop commands classified as a
tagged variant before dispatch. -/
inductive AnnCommand where
  | navigate (forward : Bool) (count : Nat)
  | copy (count : Nat)
  | quit
  | label (text : String)
deriving DecidableEq

/-- Splitting of an input into a command word and a trailing integer step
count, defaulting to 1 when no trailing count is present. -/
def splitCount (cs : List Char) : List Char × Nat :=
  let rev := cs.reverse
  let ds := rev.takeWhile isDig
  let rest := rev.dropWhile isDig
  match rest with
  | ' ' :: ws => if ds.isEmpty then (cs, 1) else (ws.reverse, digitsVal ds.reverse)
  | _ => (cs, 1)

/-- Lookup of a schema shortcut, returning the full label string. -/
def lookupSchema (schema : List (String × String)) (k : String) : Option String :=
  (schema.find? fun p => p.1 == k).map Prod.snd

/-- Modelled from the spec: classify an input as a case-insensitive
navigation, copy, or quit command with optional trailing count, else
resolve it through the schema, else treat it as a literal label. -/
def parseCommand (schema : List (String × String)) (input : String) : AnnCommand :=
  let wn := splitCount input.data
  let w := wn.1
  let n := wn.2
  if eqIgnoreCase w "next".data || eqIgnoreCase w ".".data then .navigate true n
  else if eqIgnoreCase w "prev".data || eqIgnoreCase w ",".data then .navigate false n
  else if eqIgnoreCase w "copy".data || eqIgnoreCase w "c".data then .copy n
  else if eqIgnoreCase w "quit".data || eqIgnoreCase w "q".data then .quit
  else
    match lookupSchema schema input with
    | some long => .label long
    | none => .label input

/-- State of the annotation loop: cursor index, annotation array, most
recently entered label, steps since the last flush, persisted file
contents, and whether the loop has returned control. -/
structure AnnState where
  cursor : Nat
  anns : List Ann
  lastLabel : Ann
  sinceFlush : Nat
  file : Option (List String)
  ended : Bool
deriving DecidableEq

/-- Write a value into `n` consecutive slots starting at index `i`;
writes past the end of the array are dropped. -/
def writeRun (anns : List Ann) (i n : Nat) (v : Ann) : List Ann :=
  match n with
  | 0 => anns
  | m + 1 => writeRun (anns.set i v) (i + 1) m v

/-- Flush: persist the serialized annotation array and reset the
steps-since-flush counter. -/
def flushState (s : AnnState) : AnnState :=
  { s with file := some (serializeAnns s.anns), sinceFlush := 0 }

/-- Modelled from the spec: effect of one classified command on the loop
state.  Cursor movement is clamped to the array bounds (natural
subtraction at the start, `min` with the length at the end); a copy
writes the most recently entered label into the next `n` slots and
advances; a literal or shortcut label is recorded at the cursor which
then advances by one; quit marks the loop as returning. -/
def applyCommand (s : AnnState) : AnnCommand → AnnState
  | .navigate true n => { s with cursor := min (s.cursor + n) s.anns.length }
  | .navigate false n => { s with cursor := s.cursor - n }
  | .copy n =>
      { s with anns := writeRun s.anns s.cursor n s.lastLabel,
               cursor := min (s.cursor + n) s.anns.length }
  | .quit => { s with ended := true }
  | .label t =>
      { s with anns := s.anns.set s.cursor (some t),
               lastLabel := some t,
               cursor := s.cursor + 1 }

/-- Modelled from the spec: processing of one input line.  The input is
classified and applied; a quit flushes unconditionally; any other
command counts one step and triggers a periodic flush once the
configured save frequency is reached. -/
def stepInput (freq : Nat) (schema : List (String × String)) (s : AnnState)
    (input : String) : AnnState :=
  let c := parseCommand schema input
  let s1 := applyCommand s c
  match c with
  | .quit => flushState s1
  | _ =>
      let s2 := { s1 with sinceFlush := s1.sinceFlush + 1 }
      if freq ≤ s2.sinceFlush then flushState s2 else s2

/-- Modelled from the spec: the annotation loop over a list of input
lines.  Control returns when the loop has already ended, or when the
cursor reaches the end of the sequence, in which case the annotations
are flushed first; when the input list is exhausted the loop is still
blocked awaiting input and has not returned control. -/
def runLoop (freq : Nat) (schema : List (String × String)) :
    AnnState → List String → AnnState
  | s, [] =>
      if s.ended then s
      else if s.anns.length ≤ s.cursor then flushState { s with ended := true }
      else s
  | s, input :: rest =>
      if s.ended then s
      else if s.anns.length ≤ s.cursor then flushState { s with ended := true }
      else runLoop freq schema (stepInput freq schema s input) rest

/-- Initial annotation-loop state for `n` images: cursor at the first
image, all slots unset, no label entered yet, nothing persisted. -/
def initState (n : Nat) : AnnState :=
  { cursor := 0, anns := List.replicate n none, lastLabel := none,
    sinceFlush := 0, file := none, ended := false }

/-- File on a camera mount or in a local directory: a filename and an
opaque content blob. -/
structure CamFile where
  name : List Char
  content : Nat
deriving DecidableEq

/-- Recognized image files carry the camera's `.JPG` extension. -/
def isImageFile (f : CamFile) : Bool :=
  match f.name.reverse with
  | 'G' :: 'P' :: 'J' :: '.' :: _ => true
  | _ => false

/-- Environment of the camera transfer utility: the files on the mounted
device and the files in the local destination directory. -/
structure CameraEnv where
  device : List CamFile
  localDir : List CamFile
deriving DecidableEq

/-- Modelled from the spec: `autographer.downloadData` copies all
recognized image files from the device to the local directory,
preserving filenames, and removes nothing from the device. -/
def downloadData (env : CameraEnv) : CameraEnv :=
  { env with localDir := env.localDir ++ env.device.filter isImageFile }

/-- Modelled from the spec: `autographer.deleteCameraData` is the
separate, explicit operation that erases the data from the device. -/
def deleteCameraData (env : CameraEnv) : CameraEnv :=
  { env with device := [] }

example : parseTimestamp "20231127_103000".data =
    some ⟨2023, 11, 27, 10, 30, 0⟩ := by decide

example : parseTimestamp "20230231_103000".data = none := by decide

example : parseTimestamp "2023112_103000".data = none := by decide

example : lexLt "abc".data "abd".data = true := by decide

/-- Default stream used only to give `List.getD` a value. -/
def emptyStream : SensorData := .text "" []

/-- Length of one rendered panel equals the number of the stream's
timestamps inside the window. -/
theorem renderPanel_length (start dur : Int) (s : SensorData) :
    (renderPanel start dur s).length
      = (streamTimes s).countP (inWindow start dur) := by
  cases s <;>
    · simp only [renderPanel, streamTimes, List.length_map, List.countP_map,
        Function.comp_def]
      rw [← List.countP_eq_length_filter]

/-- A panel whose stream has no timestamp inside the window is empty. -/
theorem renderPanel_eq_nil (start dur : Int) (s : SensorData)
    (h : ∀ t ∈ streamTimes s, inWindow start dur t = false) :
    renderPanel start dur s = [] := by
  cases s <;>
    simp only [renderPanel, streamTimes] at h ⊢ <;>
    · rw [List.map_eq_nil_iff, List.filter_eq_nil_iff]
      intro e he
      simp [h e.1 (List.mem_map.mpr ⟨e, he, rfl⟩)]

/-- C1: for every list of streams and every valid window, `plot_window`
renders per stream exactly the entries whose timestamp lies in
`[start, start + dur)`, so the rendered entry count per stream equals
the number of that stream's timestamps in that interval. -/
theorem viewer_plot_window_count (streams : List SensorData) (start dur : Int)
    (i : Nat) (h : i < streams.length) :
    ((plot_window streams start dur).getD i []).length
      = (streamTimes (streams.getD i emptyStream)).countP (inWindow start dur) := by
  rw [List.getD_eq_getElem?_getD, List.getD_eq_getElem?_getD, plot_window,
    List.getElem?_map, List.getElem?_eq_getElem h]
  simp [renderPanel_length]

/-- Witness for C1 on a concrete one-stream list and window. -/
theorem viewer_plot_window_count_witness :
    ((plot_window [SensorData.scalar "Light" [(0, 5), (3, 7)]] 0 2).getD 0 []).length
      = (streamTimes (([SensorData.scalar "Light" [(0, 5), (3, 7)]]).getD 0
          emptyStream)).countP (inWindow 0 2) :=
  viewer_plot_window_count [SensorData.scalar "Light" [(0, 5), (3, 7)]] 0 2 0
    (by decide)

/-- Writing a run of slots preserves the array length. -/
theorem writeRun_length (v : Ann) :
    ∀ (n : Nat) (anns : List Ann) (i : Nat),
      (writeRun anns i n v).length = anns.length := by
  intro n
  induction n with
  | zero => intro anns i; rfl
  | succ m ih =>
      intro anns i
      rw [writeRun, ih, List.length_set]

/-- Slots strictly before the run are untouched. -/
theorem writeRun_getElem?_lt (v : Ann) :
    ∀ (n : Nat) (anns : List Ann) (i j : Nat), j < i →
      (writeRun anns i n v)[j]? = anns[j]? := by
  intro n
  induction n with
  | zero => intro anns i j _; rfl
  | succ m ih =>
      intro anns i j hj
      rw [writeRun, ih _ _ _ (Nat.lt_succ_of_lt hj),
        List.getElem?_set_ne (Nat.ne_of_gt hj)]

/-- Slots inside the run all hold the written value. -/
theorem writeRun_getElem?_in (v : Ann) :
    ∀ (n : Nat) (anns : List Ann) (i j : Nat),
      i ≤ j → j < i + n → j < anns.length →
      (writeRun anns i n v)[j]? = some v := by
  intro n
  induction n with
  | zero => intro anns i j h1 h2 _; omega
  | succ m ih =>
      intro anns i j h1 h2 hlen
      rw [writeRun]
      rcases Nat.eq_or_lt_of_le h1 with rfl | hij
      · rw [writeRun_getElem?_lt v m _ _ _ (Nat.lt_succ_self i),
          List.getElem?_set_self hlen]
      · exact ih _ _ _ hij (by omega) (by simpa using hlen)

/-- C2: a copy command with count `N`, when the most recently entered
label is `L` and `N` slots remain, assigns `L` to the `N` images at
positions `cursor` through `cursor + N - 1` and leaves the cursor at
`cursor + N`. -/
theorem annotate_copy_assigns (s : AnnState) (L : String) (N : Nat)
    (hL : s.lastLabel = some L) (hN : s.cursor + N ≤ s.anns.length) :
    (applyCommand s (.copy N)).cursor = s.cursor + N ∧
      ∀ k, k < N →
        (applyCommand s (.copy N)).anns.getD (s.cursor + k) none = some L := by
  constructor
  · simp [applyCommand, Nat.min_eq_left hN]
  · intro k hk
    simp only [applyCommand, List.getD_eq_getElem?_getD]
    rw [hL, writeRun_getElem?_in (some L) N s.anns s.cursor (s.cursor + k)
      (Nat.le_add_right _ _) (by omega) (by omega)]
    rfl

/-- Witness for C2 on a concrete three-image state. -/
theorem annotate_copy_assigns_witness :
    (applyCommand ⟨0, [none, none, none], some "MVPA", 0, none, false⟩
        (.copy 2)).cursor = 0 + 2 ∧
      ∀ k, k < 2 →
        (applyCommand ⟨0, [none, none, none], some "MVPA", 0, none, false⟩
            (.copy 2)).anns.getD (0 + k) none = some "MVPA" :=
  annotate_copy_assigns ⟨0, [none, none, none], some "MVPA", 0, none, false⟩
    "MVPA" 2 rfl (by decide)

/-- C3 fails as stated: with two images and the cursor on the second,
advancing by 5 clamps at the end, so retreating by 5 lands on the first
image, not back where the cursor started. -/
theorem annotate_roundtrip_counterexample :
    ¬ ((applyCommand (applyCommand ⟨1, [none, none], none, 0, none, false⟩
          (.navigate true 5)) (.navigate false 5)).cursor = 1) := by
  decide

/-- C3 amended: advancing by `N` and then retreating by `N` returns the
cursor to its original position whenever the advance stays within
bounds; and clamped movement never leaves the array bounds (commands
are total, so no step count raises an error). -/
theorem annotate_navigate_roundtrip (s : AnnState) (N : Nat)
    (h : s.cursor + N ≤ s.anns.length) :
    (applyCommand (applyCommand s (.navigate true N))
        (.navigate false N)).cursor = s.cursor ∧
      ∀ M : Nat, (applyCommand s (.navigate true M)).cursor ≤ s.anns.length ∧
        (applyCommand s (.navigate false M)).cursor ≤ s.cursor := by
  refine ⟨?_, fun M => ⟨?_, ?_⟩⟩
  · simp [applyCommand, Nat.min_eq_left h]
  · simp [applyCommand]
  · simp [applyCommand]

/-- Witness for the amended C3 on a concrete state. -/
theorem annotate_navigate_roundtrip_witness :
    (applyCommand (applyCommand ⟨0, [none, none, none], none, 0, none, false⟩
        (.navigate true 2)) (.navigate false 2)).cursor = 0 ∧
      ∀ M : Nat,
        (applyCommand ⟨0, [none, none, none], none, 0, none, false⟩
            (.navigate true M)).cursor ≤
          ([none, none, none] : List Ann).length ∧
        (applyCommand ⟨0, [none, none, none], none, 0, none, false⟩
            (.navigate false M)).cursor ≤ 0 :=
  annotate_navigate_roundtrip ⟨0, [none, none, none], none, 0, none, false⟩ 2
    (by decide)

/-- Decoding inverts encoding on one annotation slot. -/
theorem decodeAnn_encodeAnn (a : Ann) : decodeAnn (encodeAnn a) = a := by
  cases a <;> rfl

/-- C4: flushing the annotation array to disk and loading it back from
the same serialized format yields the sequence that was written. -/
theorem annotate_serialize_roundtrip (anns : List Ann) :
    loadAnns (serializeAnns anns) = anns := by
  induction anns with
  | nil => rfl
  | cons a as ih =>
      simp only [serializeAnns, loadAnns, List.map_cons, List.map_map] at ih ⊢
      rw [decodeAnn_encodeAnn, ih]

/-- Capture times of the five images of the example session, one second
apart from 00:00:00 to 00:00:04. -/
def exampleTimes : List Timestamp :=
  (List.range 5).map fun i => ⟨2023, 11, 27, 0, 0, i⟩

/-- The example annotation schema restricted to the shortcut used. -/
def exampleSchema : List (String × String) := [("s", "Sedentary")]

/-- C5: with 5 images timestamped 00:00:00 through 00:00:04 and schema
mapping "s" to "Sedentary", entering `s`, `copy 2`, `q` produces the
annotation array [Sedentary, Sedentary, Sedentary, unset, unset], and
the file persisted on quit holds exactly this array. -/
theorem annotate_example_session :
    (runLoop 10 exampleSchema (initState exampleTimes.length)
        ["s", "copy 2", "q"]).anns
      = [some "Sedentary", some "Sedentary", some "Sedentary", none, none] ∧
    (runLoop 10 exampleSchema (initState exampleTimes.length)
        ["s", "copy 2", "q"]).file
      = some (serializeAnns
          [some "Sedentary", some "Sedentary", some "Sedentary", none, none]) := by
  exact ⟨by decide, by decide⟩

/-- C6: a window of duration 0, and more generally any window containing
none of a stream's timestamps, selects the empty set for that stream
and renders an empty panel without error. -/
theorem viewer_empty_window (streams : List SensorData) (start dur : Int) (i : Nat)
    (h : dur = 0 ∨
      ∀ t ∈ streamTimes (streams.getD i emptyStream), inWindow start dur t = false) :
    (plot_window streams start dur).getD i [] = [] := by
  by_cases hi : i < streams.length
  · rw [List.getD_eq_getElem?_getD, plot_window, List.getElem?_map,
      List.getElem?_eq_getElem hi]
    simp only [Option.map_some', Option.getD_some]
    apply renderPanel_eq_nil
    rcases h with rfl | h
    · intro t _
      simp only [inWindow, Bool.and_eq_false_iff, decide_eq_false_iff_not]
      omega
    · intro t ht
      apply h
      rwa [List.getD_eq_getElem?_getD, List.getElem?_eq_getElem hi]
  · rw [List.getD_eq_getElem?_getD, plot_window,
      List.getElem?_eq_none (by simpa using Nat.le_of_not_lt hi)]
    rfl

/-- Witness for C6 on a concrete stream list with a zero-length window. -/
theorem viewer_empty_window_witness :
    (plot_window [SensorData.image "Camera" [(5, "img1")]] 5 0).getD 0 [] = [] :=
  viewer_empty_window [SensorData.image "Camera" [(5, "img1")]] 5 0 0 (Or.inl rfl)

/-- C9: downloading copies every recognized image file to the local
directory preserving its filename, and removes nothing from the device;
only the separate delete operation clears the device. -/
theorem autographer_download_frame (env : CameraEnv) (f : CamFile)
    (hf : f ∈ env.device) :
    (downloadData env).device = env.device ∧
      (isImageFile f = true → f ∈ (downloadData env).localDir) ∧
      (deleteCameraData env).device = [] := by
  refine ⟨rfl, fun hi => ?_, rfl⟩
  simp only [downloadData, List.mem_append]
  exact Or.inr (List.mem_filter.mpr ⟨hf, hi⟩)

/-- Witness for C9 on a concrete device holding one image file. -/
theorem autographer_download_frame_witness :
    (downloadData ⟨[⟨"B001.JPG".data, 7⟩], []⟩).device = [⟨"B001.JPG".data, 7⟩] ∧
      (isImageFile ⟨"B001.JPG".data, 7⟩ = true →
        (⟨"B001.JPG".data, 7⟩ : CamFile) ∈
          (downloadData ⟨[⟨"B001.JPG".data, 7⟩], []⟩).localDir) ∧
      (deleteCameraData ⟨[⟨"B001.JPG".data, 7⟩], []⟩).device = [] :=
  autographer_download_frame ⟨[⟨"B001.JPG".data, 7⟩], []⟩ ⟨"B001.JPG".data, 7⟩
    (by decide)

/-- Invariants of one annotation-loop step: if the loop state was not
ended and had taken fewer than `freq` steps since its last flush, then
after processing one input the steps-since-flush count is again below
`freq` (a flush fires as soon as the count reaches `freq`), and if the
step ended the loop (quit) the annotations were flushed. -/
theorem stepInput_inv (freq : Nat) (schema : List (String × String))
    (s : AnnState) (input : String) (h0 : 0 < freq)
    (hs : s.sinceFlush < freq) (he : s.ended = false) :
    ((stepInput freq schema s input).ended = true →
      (stepInput freq schema s input).file
        = some (serializeAnns (stepInput freq schema s input).anns)) ∧
    (stepInput freq schema s input).sinceFlush < freq := by
  cases hc : parseCommand schema input with
  | navigate fwd n =>
      cases fwd <;>
        · simp only [stepInput, hc, applyCommand, flushState]
          split <;> simp_all <;> omega
  | copy n =>
      simp only [stepInput, hc, applyCommand, flushState]
      split <;> simp_all <;> omega
  | quit =>
      simp only [stepInput, hc, applyCommand, flushState]
      exact ⟨fun _ => trivial, h0⟩
  | label t =>
      simp only [stepInput, hc, applyCommand, flushState]
      split <;> simp_all <;> omega

/-- C7: the annotation loop flushes the full annotation array every
`freq` steps and unconditionally on both terminal paths (cursor at the
end of the sequence, or quit), so whenever the loop has returned
control the persisted file holds the serialized current annotations,
and the loop never goes `freq` or more steps without flushing. -/
theorem annotate_loop_flush (freq : Nat) (schema : List (String × String))
    (inputs : List String) (s : AnnState) (h0 : 0 < freq)
    (hs : s.sinceFlush < freq)
    (he : s.ended = true → s.file = some (serializeAnns s.anns)) :
    ((runLoop freq schema s inputs).ended = true →
      (runLoop freq schema s inputs).file
        = some (serializeAnns (runLoop freq schema s inputs).anns)) ∧
    (runLoop freq schema s inputs).sinceFlush < freq := by
  induction inputs generalizing s with
  | nil =>
      rw [runLoop]
      split
      · exact ⟨he, hs⟩
      · split
        · exact ⟨fun _ => rfl, h0⟩
        · exact ⟨he, hs⟩
  | cons input rest ih =>
      rw [runLoop]
      split
      · exact ⟨he, hs⟩
      · split
        · exact ⟨fun _ => rfl, h0⟩
        · rename_i hend _
          have hstep := stepInput_inv freq schema s input h0 hs
            (Bool.of_not_eq_true hend)
          exact ih _ hstep.2 hstep.1

/-- Witness for C7 on a concrete one-image session. -/
theorem annotate_loop_flush_witness :
    ((runLoop 2 [] (initState 1) ["x"]).ended = true →
      (runLoop 2 [] (initState 1) ["x"]).file
        = some (serializeAnns (runLoop 2 [] (initState 1) ["x"]).anns)) ∧
    (runLoop 2 [] (initState 1) ["x"]).sinceFlush < 2 :=
  annotate_loop_flush 2 [] ["x"] (initState 1) (by decide) (by decide) (by decide)

/-- A list of length `n + 1` splits into a head and a tail of length `n`. -/
theorem cons_of_length_succ {α : Type} (l : List α) (n : Nat) (h : l.length = n + 1) :
    ∃ c cs, l = c :: cs ∧ cs.length = n := by
  cases l with
  | nil => simp at h
  | cons c cs => exact ⟨c, cs, rfl, by simpa using h⟩

/-- A string passing the fixed-width format check splits into an
eight-digit block, an underscore, and a six-digit block. -/
theorem timeFormatOk_shape (t : List Char) (h : timeFormatOk t = true) :
    ∃ a b, t = a ++ '_' :: b ∧ a.length = 8 ∧ b.length = 6 ∧
      (∀ c ∈ a, isDig c = true) ∧ (∀ c ∈ b, isDig c = true) := by
  unfold timeFormatOk at h
  split at h
  case _ y1 y2 y3 y4 m1 m2 d1 d2 u h1 h2 n1 n2 s1 s2 =>
    simp only [Bool.and_eq_true, beq_iff_eq] at h
    obtain ⟨⟨⟨⟨⟨⟨⟨⟨⟨⟨⟨⟨⟨⟨hy1, hy2⟩, hy3⟩, hy4⟩, hm1⟩, hm2⟩, hd1⟩, hd2⟩, hu⟩,
      hh1⟩, hh2⟩, hn1⟩, hn2⟩, hs1⟩, hs2⟩ := h
    subst hu
    refine ⟨[y1, y2, y3, y4, m1, m2, d1, d2], [h1, h2, n1, n2, s1, s2],
      rfl, rfl, rfl, ?_, ?_⟩
    · intro c hc
      simp only [List.mem_cons, List.not_mem_nil, or_false] at hc
      rcases hc with rfl | rfl | rfl | rfl | rfl | rfl | rfl | rfl <;> assumption
    · intro c hc
      simp only [List.mem_cons, List.not_mem_nil, or_false] at hc
      rcases hc with rfl | rfl | rfl | rfl | rfl | rfl <;> assumption
  case _ => exact absurd h (by simp)

/-- Conversely, an eight-digit block, an underscore and a six-digit block
pass the fixed-width format check. -/
theorem timeFormatOk_of_shape (a b : List Char) (ha : a.length = 8) (hb : b.length = 6)
    (hda : ∀ c ∈ a, isDig c = true) (hdb : ∀ c ∈ b, isDig c = true) :
    timeFormatOk (a ++ '_' :: b) = true := by
  obtain ⟨a0, a, rfl, ha7⟩ := cons_of_length_succ a 7 ha
  obtain ⟨a1, a, rfl, ha6⟩ := cons_of_length_succ a 6 ha7
  obtain ⟨a2, a, rfl, ha5⟩ := cons_of_length_succ a 5 ha6
  obtain ⟨a3, a, rfl, ha4⟩ := cons_of_length_succ a 4 ha5
  obtain ⟨a4, a, rfl, ha3⟩ := cons_of_length_succ a 3 ha4
  obtain ⟨a5, a, rfl, ha2⟩ := cons_of_length_succ a 2 ha3
  obtain ⟨a6, a, rfl, ha1⟩ := cons_of_length_succ a 1 ha2
  obtain ⟨a7, a, rfl, ha0⟩ := cons_of_length_succ a 0 ha1
  obtain rfl := List.length_eq_zero.mp ha0
  obtain ⟨b0, b, rfl, hb5⟩ := cons_of_length_succ b 5 hb
  obtain ⟨b1, b, rfl, hb4⟩ := cons_of_length_succ b 4 hb5
  obtain ⟨b2, b, rfl, hb3⟩ := cons_of_length_succ b 3 hb4
  obtain ⟨b3, b, rfl, hb2⟩ := cons_of_length_succ b 2 hb3
  obtain ⟨b4, b, rfl, hb1⟩ := cons_of_length_succ b 1 hb2
  obtain ⟨b5, b, rfl, hb0⟩ := cons_of_length_succ b 0 hb1
  obtain rfl := List.length_eq_zero.mp hb0
  simp [timeFormatOk, hda, hdb]

/-- Field extraction along the block decomposition of a format string. -/
theorem fieldVal_shape (a b : List Char) (ha : a.length = 8) (hb : b.length = 6) :
    fieldVal (a ++ '_' :: b) 0 4 = digitsVal (a.take 4) ∧
    fieldVal (a ++ '_' :: b) 4 2 = digitsVal ((a.drop 4).take 2) ∧
    fieldVal (a ++ '_' :: b) 6 2 = digitsVal (a.drop 6) ∧
    fieldVal (a ++ '_' :: b) 9 2 = digitsVal (b.take 2) ∧
    fieldVal (a ++ '_' :: b) 11 2 = digitsVal ((b.drop 2).take 2) ∧
    fieldVal (a ++ '_' :: b) 13 2 = digitsVal (b.drop 4) := by
  obtain ⟨a0, a, rfl, ha7⟩ := cons_of_length_succ a 7 ha
  obtain ⟨a1, a, rfl, ha6⟩ := cons_of_length_succ a 6 ha7
  obtain ⟨a2, a, rfl, ha5⟩ := cons_of_length_succ a 5 ha6
  obtain ⟨a3, a, rfl, ha4⟩ := cons_of_length_succ a 4 ha5
  obtain ⟨a4, a, rfl, ha3⟩ := cons_of_length_succ a 3 ha4
  obtain ⟨a5, a, rfl, ha2⟩ := cons_of_length_succ a 2 ha3
  obtain ⟨a6, a, rfl, ha1⟩ := cons_of_length_succ a 1 ha2
  obtain ⟨a7, a, rfl, ha0⟩ := cons_of_length_succ a 0 ha1
  obtain rfl := List.length_eq_zero.mp ha0
  obtain ⟨b0, b, rfl, hb5⟩ := cons_of_length_succ b 5 hb
  obtain ⟨b1, b, rfl, hb4⟩ := cons_of_length_succ b 4 hb5
  obtain ⟨b2, b, rfl, hb3⟩ := cons_of_length_succ b 3 hb4
  obtain ⟨b3, b, rfl, hb2⟩ := cons_of_length_succ b 2 hb3
  obtain ⟨b4, b, rfl, hb1⟩ := cons_of_length_succ b 1 hb2
  obtain ⟨b5, b, rfl, hb0⟩ := cons_of_length_succ b 0 hb1
  obtain rfl := List.length_eq_zero.mp hb0
  exact ⟨rfl, rfl, rfl, rfl, rfl, rfl⟩

/-- Parsing with the fixed format fails exactly on the strings that do
not match it. -/
theorem parseTimestamp_none_iff (t : List Char) :
    parseTimestamp t = none ↔ ¬ matchesFormat t := by
  constructor
  · intro hp hm
    obtain ⟨a, b, rfl, ha, hb, hda, hdb, r1, r2, r3, r4, r5, r6, r7⟩ := hm
    have hfok := timeFormatOk_of_shape a b ha hb hda hdb
    obtain ⟨e1, e2, e3, e4, e5, e6⟩ := fieldVal_shape a b ha hb
    rw [parseTimestamp] at hp
    simp only [hfok, if_true, e1, e2, e3, e4, e5, e6] at hp
    rw [if_pos ⟨r1, r2, r3, r4, r5, r6, r7⟩] at hp
    exact Option.some_ne_none _ hp
  · intro hm
    cases he : parseTimestamp t with
    | none => rfl
    | some ts =>
        exfalso
        apply hm
        rw [parseTimestamp] at he
        by_cases hfok : timeFormatOk t = true
        · obtain ⟨a, b, rfl, ha, hb, hda, hdb⟩ := timeFormatOk_shape t hfok
          obtain ⟨e1, e2, e3, e4, e5, e6⟩ := fieldVal_shape a b ha hb
          simp only [hfok, if_true, e1, e2, e3, e4, e5, e6] at he
          by_cases hr : 1 ≤ digitsVal ((a.drop 4).take 2) ∧
              digitsVal ((a.drop 4).take 2) ≤ 12 ∧
              1 ≤ digitsVal (a.drop 6) ∧
              digitsVal (a.drop 6) ≤ daysInMonth (digitsVal (a.take 4))
                (digitsVal ((a.drop 4).take 2)) ∧
              digitsVal (b.take 2) ≤ 23 ∧
              digitsVal ((b.drop 2).take 2) ≤ 59 ∧
              digitsVal (b.drop 4) ≤ 59
          · exact ⟨a, b, rfl, ha, hb, hda, hdb, hr.1, hr.2.1, hr.2.2.1,
              hr.2.2.2.1, hr.2.2.2.2.1, hr.2.2.2.2.2.1, hr.2.2.2.2.2.2⟩
          · rw [if_neg hr] at he
            exact Option.noConfusion he
        · rw [if_neg hfok] at he
          exact Option.noConfusion he

/-- Characters with equal code points are equal. -/
theorem char_eq_of_toNat_eq {a b : Char} (h : a.toNat = b.toNat) : a = b :=
  Char.eq_of_val_eq (UInt32.eq_of_val_eq (Fin.eq_of_val_eq h))


/-- Head comparison, less-than case. -/
theorem lexLt_cons_lt {a b : Char} (as bs : List Char) (h : a.toNat < b.toNat) :
    lexLt (a :: as) (b :: bs) = true := by
  rw [lexLt, if_pos h]

/-- Head comparison, greater-than case. -/
theorem lexLt_cons_gt {a b : Char} (as bs : List Char) (h : b.toNat < a.toNat) :
    lexLt (a :: as) (b :: bs) = false := by
  rw [lexLt, if_neg (by omega), if_pos h]

/-- Head comparison, equal case: comparison recurses on the tails. -/
theorem lexLt_cons_eq {a b : Char} (as bs : List Char) (h : a.toNat = b.toNat) :
    lexLt (a :: as) (b :: bs) = lexLt as bs := by
  rw [lexLt, if_neg (by omega), if_neg (by omega)]

/-- Strict lexicographic comparison is asymmetric. -/
theorem lexLt_asymm : ∀ p q : List Char, lexLt p q = true → lexLt q p = false := by
  intro p
  induction p with
  | nil =>
      intro q hq
      cases q with
      | nil => exact absurd hq (by simp [lexLt])
      | cons c cs => rfl
  | cons a as ih =>
      intro q hq
      cases q with
      | nil => exact absurd hq (by simp [lexLt])
      | cons b bs =>
          rcases Nat.lt_trichotomy a.toNat b.toNat with h | h | h
          · exact lexLt_cons_gt bs as h
          · rw [lexLt_cons_eq as bs h] at hq
            rw [lexLt_cons_eq bs as h.symm]
            exact ih bs hq
          · rw [lexLt_cons_gt as bs h] at hq
            exact absurd hq (by simp)

/-- Strict lexicographic comparison is transitive. -/
theorem lexLt_trans : ∀ p q r : List Char,
    lexLt p q = true → lexLt q r = true → lexLt p r = true := by
  intro p
  induction p with
  | nil =>
      intro q r hpq hqr
      cases q with
      | nil => exact hqr
      | cons b bs =>
          cases r with
          | nil => exact absurd hqr (by simp [lexLt])
          | cons c cs => rfl
  | cons a as ih =>
      intro q r hpq hqr
      cases q with
      | nil => exact absurd hpq (by simp [lexLt])
      | cons b bs =>
          cases r with
          | nil => exact absurd hqr (by simp [lexLt])
          | cons c cs =>
              rcases Nat.lt_trichotomy a.toNat b.toNat with h1 | h1 | h1
              · rcases Nat.lt_trichotomy b.toNat c.toNat with h2 | h2 | h2
                · exact lexLt_cons_lt as cs (by omega)
                · exact lexLt_cons_lt as cs (by omega)
                · rw [lexLt_cons_gt bs cs h2] at hqr
                  exact absurd hqr (by simp)
              · rcases Nat.lt_trichotomy b.toNat c.toNat with h2 | h2 | h2
                · exact lexLt_cons_lt as cs (by omega)
                · rw [lexLt_cons_eq as bs h1] at hpq
                  rw [lexLt_cons_eq bs cs h2] at hqr
                  rw [lexLt_cons_eq as cs (by omega)]
                  exact ih bs cs hpq hqr
                · rw [lexLt_cons_gt bs cs h2] at hqr
                  exact absurd hqr (by simp)
              · rw [lexLt_cons_gt as bs h1] at hpq
                exact absurd hpq (by simp)

/-- Two lists unrelated by strict lexicographic comparison in either
direction are equal. -/
theorem lexLt_connex : ∀ p q : List Char,
    lexLt p q = false → lexLt q p = false → p = q := by
  intro p
  induction p with
  | nil =>
      intro q hpq _
      cases q with
      | nil => rfl
      | cons c cs => exact absurd hpq (by simp [lexLt])
  | cons a as ih =>
      intro q hpq hqp
      cases q with
      | nil => exact absurd hqp (by simp [lexLt])
      | cons b bs =>
          rcases Nat.lt_trichotomy a.toNat b.toNat with h | h | h
          · rw [lexLt_cons_lt as bs h] at hpq
            exact absurd hpq (by simp)
          · rw [lexLt_cons_eq as bs h] at hpq
            rw [lexLt_cons_eq bs as h.symm] at hqp
            rw [char_eq_of_toNat_eq h, ih bs hpq hqp]
          · rw [lexLt_cons_lt bs as h] at hqp
            exact absurd hqp (by simp)

/-- Reflexive path comparison is total. -/
theorem pathLe_total (p q : List Char) (h : pathLe p q = false) : pathLe q p = true := by
  simp only [pathLe, Bool.not_eq_false'] at h
  simp only [pathLe, Bool.not_eq_true']
  exact lexLt_asymm q p h

/-- Reflexive path comparison is transitive. -/
theorem pathLe_trans (p q r : List Char)
    (hpq : pathLe p q = true) (hqr : pathLe q r = true) : pathLe p r = true := by
  simp only [pathLe, Bool.not_eq_true'] at hpq hqr ⊢
  by_contra hrp
  rw [Bool.not_eq_false] at hrp
  cases hpq2 : lexLt p q with
  | true =>
      rw [lexLt_trans r p q hrp hpq2] at hqr
      exact Bool.noConfusion hqr
  | false =>
      obtain rfl := lexLt_connex p q hpq2 hpq
      rw [hrp] at hqr
      exact Bool.noConfusion hqr

/-- Digit characters have code points between 48 and 57. -/
theorem isDig_bounds {c : Char} (h : isDig c = true) :
    48 ≤ c.toNat ∧ c.toNat ≤ 57 := by
  simpa [isDig, Bool.and_eq_true, decide_eq_true_eq] using h

/-- The value of a digit string is below `10 ^ length`. -/
theorem digitsVal_lt_pow : ∀ l : List Char, (∀ c ∈ l, isDig c = true) →
    digitsVal l < 10 ^ l.length := by
  intro l
  induction l with
  | nil => intro _; simp [digitsVal]
  | cons c cs ih =>
      intro hd
      have hc := isDig_bounds (hd c (by simp))
      have htl := ih fun d hdm => hd d (by simp [hdm])
      have hcd : charDigit c ≤ 9 := by
        simp only [charDigit]
        omega
      simp only [digitsVal, List.length_cons, pow_succ]
      have h1 : charDigit c * 10 ^ cs.length ≤ 9 * 10 ^ cs.length :=
        Nat.mul_le_mul_right _ hcd
      omega

/-- A digit string with a strictly smaller value is lexicographically
smaller, for strings of equal length. -/
theorem lexLt_of_digitsVal_lt : ∀ xs ys : List Char, xs.length = ys.length →
    (∀ c ∈ xs, isDig c = true) → (∀ c ∈ ys, isDig c = true) →
    digitsVal xs < digitsVal ys → lexLt xs ys = true := by
  intro xs
  induction xs with
  | nil =>
      intro ys hlen _ _ hlt
      cases ys with
      | nil => exact absurd hlt (by simp [digitsVal])
      | cons c cs => simp at hlen
  | cons a as ih =>
      intro ys hlen hda hdb hlt
      cases ys with
      | nil => simp at hlen
      | cons b bs =>
          have hlen2 : as.length = bs.length := by simpa using hlen
          have ha := isDig_bounds (hda a (by simp))
          have hb := isDig_bounds (hdb b (by simp))
          rcases Nat.lt_trichotomy a.toNat b.toNat with h | h | h
          · exact lexLt_cons_lt as bs h
          · rw [lexLt_cons_eq as bs h]
            apply ih bs hlen2 (fun d hd => hda d (by simp [hd]))
              (fun d hd => hdb d (by simp [hd]))
            have hcd : charDigit a = charDigit b := by
              simp only [charDigit]
              omega
            simp only [digitsVal, hcd, hlen2] at hlt
            omega
          · exfalso
            have hv2 : digitsVal bs < 10 ^ bs.length :=
              digitsVal_lt_pow bs fun d hd => hdb d (by simp [hd])
            have hcd : charDigit b + 1 ≤ charDigit a := by
              simp only [charDigit]
              omega
            have h1 : (charDigit b + 1) * 10 ^ bs.length
                ≤ charDigit a * 10 ^ bs.length :=
              Nat.mul_le_mul_right _ hcd
            rw [Nat.succ_mul] at h1
            simp only [digitsVal, hlen2] at hlt
            omega

/-- Digit strings of equal length and equal value are equal. -/
theorem digitsVal_injOn : ∀ xs ys : List Char, xs.length = ys.length →
    (∀ c ∈ xs, isDig c = true) → (∀ c ∈ ys, isDig c = true) →
    digitsVal xs = digitsVal ys → xs = ys := by
  intro xs
  induction xs with
  | nil =>
      intro ys hlen _ _ _
      cases ys with
      | nil => rfl
      | cons c cs => simp at hlen
  | cons a as ih =>
      intro ys hlen hda hdb hv
      cases ys with
      | nil => simp at hlen
      | cons b bs =>
          have hlen2 : as.length = bs.length := by simpa using hlen
          have ha := isDig_bounds (hda a (by simp))
          have hb := isDig_bounds (hdb b (by simp))
          have hva : digitsVal as < 10 ^ as.length :=
            digitsVal_lt_pow as fun d hd => hda d (by simp [hd])
          have hvb : digitsVal bs < 10 ^ bs.length :=
            digitsVal_lt_pow bs fun d hd => hdb d (by simp [hd])
          simp only [digitsVal, hlen2] at hv
          have hcd : charDigit a = charDigit b := by
            rcases Nat.lt_trichotomy (charDigit a) (charDigit b) with h | h | h
            · exfalso
              have h1 : (charDigit a + 1) * 10 ^ bs.length
                  ≤ charDigit b * 10 ^ bs.length := Nat.mul_le_mul_right _ h
              rw [Nat.succ_mul] at h1
              rw [hlen2] at hva
              omega
            · exact h
            · exfalso
              have h1 : (charDigit b + 1) * 10 ^ bs.length
                  ≤ charDigit a * 10 ^ bs.length := Nat.mul_le_mul_right _ h
              rw [Nat.succ_mul] at h1
              omega
          have hab : a = b := by
            apply char_eq_of_toNat_eq
            simp only [charDigit] at hcd
            omega
          rw [hcd] at hv
          rw [hab, ih bs hlen2 (fun d hd => hda d (by simp [hd]))
            (fun d hd => hdb d (by simp [hd])) (by omega)]

/-- Value of a concatenation of digit strings. -/
theorem digitsVal_append : ∀ u v : List Char,
    digitsVal (u ++ v) = digitsVal u * 10 ^ v.length + digitsVal v := by
  intro u v
  induction u with
  | nil => simp [digitsVal]
  | cons c cs ih =>
      simp only [List.cons_append, digitsVal, List.append_eq, List.length_append,
        ih, pow_add]
      ring

/-- Prepending a common block preserves strict lexicographic comparison. -/
theorem lexLt_append_same : ∀ u v w : List Char,
    lexLt (u ++ v) (u ++ w) = lexLt v w := by
  intro u v w
  induction u with
  | nil => rfl
  | cons c cs ih =>
      simp only [List.cons_append]
      rw [lexLt_cons_eq _ _ rfl, ih]

/-- A strict comparison of equal-length blocks decides the comparison of
any extensions of them. -/
theorem lexLt_append_of_lexLt : ∀ u v w z : List Char, u.length = v.length →
    lexLt u v = true → lexLt (u ++ w) (v ++ z) = true := by
  intro u
  induction u with
  | nil =>
      intro v w z hlen hlt
      cases v with
      | nil => exact absurd hlt (by simp [lexLt])
      | cons c cs => simp at hlen
  | cons a as ih =>
      intro v w z hlen hlt
      cases v with
      | nil => simp at hlen
      | cons b bs =>
          simp only [List.cons_append]
          rcases Nat.lt_trichotomy a.toNat b.toNat with h | h | h
          · exact lexLt_cons_lt _ _ h
          · rw [lexLt_cons_eq _ _ h] at hlt ⊢
            exact ih bs w z (by simpa using hlen) hlt
          · rw [lexLt_cons_gt as bs h] at hlt
            exact Bool.noConfusion hlt

/-- Members of an insertion step come from the inserted pair or the list. -/
theorem mem_insertPair (x p : List Char × Timestamp) :
    ∀ l, x ∈ insertPair p l → x = p ∨ x ∈ l := by
  intro l
  induction l with
  | nil =>
      intro h
      simp only [insertPair, List.mem_singleton] at h
      exact Or.inl h
  | cons y ys ih =>
      intro h
      rw [insertPair] at h
      split at h
      · rcases List.mem_cons.mp h with rfl | h2
        · exact Or.inl rfl
        · exact Or.inr h2
      · rcases List.mem_cons.mp h with rfl | h2
        · exact Or.inr (List.mem_cons_self _ _)
        · rcases ih h2 with rfl | h3
          · exact Or.inl rfl
          · exact Or.inr (List.mem_cons_of_mem _ h3)

/-- Members of the sorted list come from the original list. -/
theorem mem_sortByPath (x : List Char × Timestamp) :
    ∀ l, x ∈ sortByPath l → x ∈ l := by
  intro l
  induction l with
  | nil => intro h; simpa [sortByPath] using h
  | cons y ys ih =>
      intro h
      rw [sortByPath] at h
      rcases mem_insertPair x y (sortByPath ys) h with rfl | h2
      · exact List.mem_cons_self _ _
      · exact List.mem_cons_of_mem _ (ih h2)

/-- Inserting into a path-sorted list keeps it path-sorted. -/
theorem pairwise_insertPair (p : List Char × Timestamp) :
    ∀ l, l.Pairwise (fun u v => pathLe u.1 v.1 = true) →
      (insertPair p l).Pairwise (fun u v => pathLe u.1 v.1 = true) := by
  intro l
  induction l with
  | nil => intro _; simp [insertPair]
  | cons y ys ih =>
      intro hp
      obtain ⟨hy, hys⟩ := List.pairwise_cons.mp hp
      rw [insertPair]
      split
      · rename_i hc
        refine List.pairwise_cons.mpr ⟨?_, hp⟩
        intro z hz
        rcases List.mem_cons.mp hz with rfl | h2
        · exact hc
        · exact pathLe_trans p.1 y.1 z.1 hc (hy z h2)
      · rename_i hc
        refine List.pairwise_cons.mpr ⟨?_, ih hys⟩
        intro z hz
        rcases mem_insertPair z p ys hz with rfl | h2
        · exact pathLe_total z.1 y.1 (Bool.not_eq_true _ ▸ hc)
        · exact hy z h2

/-- The sorted list is pairwise ordered by path. -/
theorem sorted_sortByPath :
    ∀ l, (sortByPath l).Pairwise (fun u v => pathLe u.1 v.1 = true) := by
  intro l
  induction l with
  | nil => simp [sortByPath]
  | cons y ys ih => exact pairwise_insertPair y (sortByPath ys) ih

/-- Dropping a 17-character block from its own concatenation. -/
theorem drop17_append (pre s : List Char) (hpre : pre.length = 17) :
    (pre ++ s).drop 17 = s := by
  have h := @List.drop_append _ pre s 0
  simpa [hpre] using h

/-- Between two format strings extended by arbitrary suffixes, a strictly
smaller packed date-time value forces a strictly smaller lexicographic
position. -/
theorem lexLt_of_key_lt
    (a1 b1 r1 a2 b2 r2 : List Char)
    (ha1 : a1.length = 8) (hb1 : b1.length = 6)
    (ha2 : a2.length = 8) (hb2 : b2.length = 6)
    (hd1 : ∀ c ∈ a1, isDig c = true) (he1 : ∀ c ∈ b1, isDig c = true)
    (hd2 : ∀ c ∈ a2, isDig c = true) (he2 : ∀ c ∈ b2, isDig c = true)
    (hk : digitsVal a1 * 10 ^ 6 + digitsVal b1
        < digitsVal a2 * 10 ^ 6 + digitsVal b2) :
    lexLt ((a1 ++ '_' :: b1) ++ r1) ((a2 ++ '_' :: b2) ++ r2) = true := by
  have hv1 : digitsVal b1 < 10 ^ 6 := by
    have := digitsVal_lt_pow b1 he1
    rwa [hb1] at this
  have hv2 : digitsVal b2 < 10 ^ 6 := by
    have := digitsVal_lt_pow b2 he2
    rwa [hb2] at this
  rcases Nat.lt_trichotomy (digitsVal a1) (digitsVal a2) with h | h | h
  · have hlt := lexLt_of_digitsVal_lt a1 a2 (by rw [ha1, ha2]) hd1 hd2 h
    have h2 := lexLt_append_of_lexLt a1 a2 ('_' :: b1 ++ r1) ('_' :: b2 ++ r2)
      (by rw [ha1, ha2]) hlt
    simpa [List.append_assoc] using h2
  · obtain rfl : a1 = a2 := digitsVal_injOn a1 a2 (by rw [ha1, ha2]) hd1 hd2 h
    have hb : digitsVal b1 < digitsVal b2 := by omega
    have hlt := lexLt_of_digitsVal_lt b1 b2 (by rw [hb1, hb2]) he1 he2 hb
    have h2 := lexLt_append_of_lexLt b1 b2 r1 r2 (by rw [hb1, hb2]) hlt
    rw [List.append_assoc, List.append_assoc, List.cons_append, List.cons_append,
      lexLt_append_same, lexLt_cons_eq _ _ rfl]
    exact h2
  · exfalso
    have haux : (digitsVal a2 + 1) * 10 ^ 6 ≤ digitsVal a1 * 10 ^ 6 :=
      Nat.mul_le_mul_right _ h
    rw [Nat.succ_mul] at haux
    omega

/-- The chronological key of a parsed timestamp equals the packed digit
value of the format string's two blocks. -/
theorem tsKey_of_parse (a b : List Char) (ha : a.length = 8) (hb : b.length = 6)
    (ts : Timestamp) (hp : parseTimestamp (a ++ '_' :: b) = some ts) :
    tsKey ts = digitsVal a * 10 ^ 6 + digitsVal b := by
  obtain ⟨a0, a, rfl, ha7⟩ := cons_of_length_succ a 7 ha
  obtain ⟨a1, a, rfl, ha6⟩ := cons_of_length_succ a 6 ha7
  obtain ⟨a2, a, rfl, ha5⟩ := cons_of_length_succ a 5 ha6
  obtain ⟨a3, a, rfl, ha4⟩ := cons_of_length_succ a 4 ha5
  obtain ⟨a4, a, rfl, ha3⟩ := cons_of_length_succ a 3 ha4
  obtain ⟨a5, a, rfl, ha2⟩ := cons_of_length_succ a 2 ha3
  obtain ⟨a6, a, rfl, ha1⟩ := cons_of_length_succ a 1 ha2
  obtain ⟨a7, a, rfl, ha0⟩ := cons_of_length_succ a 0 ha1
  obtain rfl := List.length_eq_zero.mp ha0
  obtain ⟨b0, b, rfl, hb5⟩ := cons_of_length_succ b 5 hb
  obtain ⟨b1, b, rfl, hb4⟩ := cons_of_length_succ b 4 hb5
  obtain ⟨b2, b, rfl, hb3⟩ := cons_of_length_succ b 3 hb4
  obtain ⟨b3, b, rfl, hb2⟩ := cons_of_length_succ b 2 hb3
  obtain ⟨b4, b, rfl, hb1⟩ := cons_of_length_succ b 1 hb2
  obtain ⟨b5, b, rfl, hb0⟩ := cons_of_length_succ b 0 hb1
  obtain rfl := List.length_eq_zero.mp hb0
  simp only [parseTimestamp] at hp
  split at hp
  · split at hp
    · injection hp with hts
      subst hts
      simp only [tsKey, fieldVal, digitsVal, List.drop, List.take,
        List.length_cons, List.length_nil, charDigit]
      ring
    · exact Option.noConfusion hp
  · exact Option.noConfusion hp

/-- Under a shared 17-character filename head, path order implies
chronological order of the extracted timestamps. -/
theorem key_mono (pre p1 p2 : List Char) (t1 t2 : Timestamp)
    (h1p : p1.take 17 = pre) (h1g : get_img_time p1 = some t1)
    (h2p : p2.take 17 = pre) (h2g : get_img_time p2 = some t2)
    (hle : pathLe p1 p2 = true) : tsKey t1 ≤ tsKey t2 := by
  have hp1 : p1 = pre ++ p1.drop 17 := by
    rw [← h1p]
    exact (List.take_append_drop 17 p1).symm
  have hp2 : p2 = pre ++ p2.drop 17 := by
    rw [← h2p]
    exact (List.take_append_drop 17 p2).symm
  rw [get_img_time] at h1g h2g
  have hm1 : matchesFormat (tsSlice p1) := by
    by_contra hm
    rw [(parseTimestamp_none_iff _).mpr hm] at h1g
    exact Option.noConfusion h1g
  have hm2 : matchesFormat (tsSlice p2) := by
    by_contra hm
    rw [(parseTimestamp_none_iff _).mpr hm] at h2g
    exact Option.noConfusion h2g
  obtain ⟨a1, b1, he1, ha1, hb1, hd1, hg1, -, -, -, -, -, -, -⟩ := hm1
  obtain ⟨a2, b2, he2, ha2, hb2, hd2, hg2, -, -, -, -, -, -, -⟩ := hm2
  have hk1 : tsKey t1 = digitsVal a1 * 10 ^ 6 + digitsVal b1 :=
    tsKey_of_parse a1 b1 ha1 hb1 t1 (by rw [← he1]; exact h1g)
  have hk2 : tsKey t2 = digitsVal a2 * 10 ^ 6 + digitsVal b2 :=
    tsKey_of_parse a2 b2 ha2 hb2 t2 (by rw [← he2]; exact h2g)
  by_contra hcon
  push_neg at hcon
  simp only [tsSlice] at he1 he2
  have hlex : lexLt p2 p1 = true := by
    rw [hp1, hp2, lexLt_append_same,
      ← List.take_append_drop 15 (p2.drop 17), ← List.take_append_drop 15 (p1.drop 17),
      he1, he2]
    exact lexLt_of_key_lt a2 b2 _ a1 b1 _ ha2 hb2 ha1 hb1 hd2 hg2 hd1 hg1 (by omega)
  rw [pathLe, hlex] at hle
  exact Bool.noConfusion hle

/-- C10 amended: when all filenames share the same 17-character head
before the timestamp field (and each timestamp substring parses), the
notebook's sort by path puts the extracted timestamps in nondecreasing
order. -/
theorem notebook_sort_by_path_time_order (pre : List Char)
    (pairs : List (List Char × Timestamp))
    (hval : ∀ x ∈ pairs, x.1.take 17 = pre ∧ get_img_time x.1 = some x.2) :
    (sortByPath pairs).Pairwise (fun x y => tsKey x.2 ≤ tsKey y.2) := by
  have hsorted := sorted_sortByPath pairs
  refine hsorted.imp_of_mem ?_
  intro x y hx hy hle
  obtain ⟨hx1, hx2⟩ := hval x (mem_sortByPath x pairs hx)
  obtain ⟨hy1, hy2⟩ := hval y (mem_sortByPath y pairs hy)
  exact key_mono pre x.1 y.1 x.2 y.2 hx1 hx2 hy1 hy2 hle

/-- First counterexample filename: earlier sequence number, later
timestamp. -/
def cexPath1 : List Char := "B00000001_ABCDEF_20230102_000000E.JPG".data

/-- Second counterexample filename: later sequence number, earlier
timestamp. -/
def cexPath2 : List Char := "B00000002_ABCDEF_20230101_000000E.JPG".data

/-- The counterexample pair list, each timestamp as extracted by
`get_img_time` from its filename. -/
def cexPairs : List (List Char × Timestamp) :=
  [(cexPath1, ⟨2023, 1, 2, 0, 0, 0⟩), (cexPath2, ⟨2023, 1, 1, 0, 0, 0⟩)]

/-- C10 fails as stated: both filenames follow the naming convention
(their timestamp substrings at indices 17 through 31 parse), yet after
sorting by path the extracted timestamps are strictly decreasing,
because the characters before index 17 differ and dominate the
comparison. -/
theorem notebook_sort_by_path_counterexample :
    (∀ x ∈ cexPairs, get_img_time x.1 = some x.2) ∧
      ¬ (sortByPath cexPairs).Pairwise (fun x y => tsKey x.2 ≤ tsKey y.2) :=
  ⟨by decide, by decide⟩

/-- Witness for the amended C10 on a concrete singleton list. -/
theorem notebook_sort_by_path_time_order_witness :
    (sortByPath [(cexPath1, ⟨2023, 1, 2, 0, 0, 0⟩)]).Pairwise
      (fun x y => tsKey x.2 ≤ tsKey y.2) :=
  notebook_sort_by_path_time_order "B00000001_ABCDEF_".data
    [(cexPath1, ⟨2023, 1, 2, 0, 0, 0⟩)] (by decide)

/-- Membership in a conditional singleton pins the member down. -/
theorem mem_if_singleton {α : Type} (P : Prop) [Decidable P] (x y : α)
    (h : y ∈ (if P then [x] else [])) : y = x := by
  split at h
  · simpa using h
  · simp at h

/-- Value of a two-digit string. -/
theorem digitsVal_two (x y : Char) :
    digitsVal [x, y] = charDigit x * 10 + charDigit y := by
  simp [digitsVal]

/-- Value of a four-digit string. -/
theorem digitsVal_four (w x y z : Char) :
    digitsVal [w, x, y, z]
      = ((charDigit w * 10 + charDigit x) * 10 + charDigit y) * 10 + charDigit z := by
  simp [digitsVal]
  ring

/-- A canonical format substring has exactly fifteen characters. -/
theorem matchesFormat_length (t : List Char) (hm : matchesFormat t) :
    t.length = 15 := by
  obtain ⟨a, b, rfl, ha, hb, -, -, -, -, -, -, -, -, -⟩ := hm
  simp [List.length_append, ha, hb]

/-- No month has more than 31 days. -/
theorem daysInMonth_le_31 (y m : Nat) : daysInMonth y m ≤ 31 := by
  rw [daysInMonth]
  split_ifs <;> omega

/-- An ordered search that succeeds does so on a member of the
candidate list. -/
theorem firstSome_some {α β : Type} (l : List α) (f : α → Option β) (b : β)
    (h : firstSome l f = some b) : ∃ x ∈ l, f x = some b := by
  induction l with
  | nil => rw [firstSome] at h; exact Option.noConfusion h
  | cons x xs ih =>
      rw [firstSome] at h
      cases hfx : f x with
      | some c =>
          simp only [hfx] at h
          exact ⟨x, List.mem_cons_self x xs, hfx.trans h⟩
      | none =>
          simp only [hfx] at h
          obtain ⟨y, hy, hfy⟩ := ih h
          exact ⟨y, List.mem_cons_of_mem x hy, hfy⟩

/-- On four digits the `%Y` pattern has exactly one candidate: the
four-digit value. -/
theorem altY_canon (c1 c2 c3 c4 : Char) (r : List Char)
    (h1 : isDig c1 = true) (h2 : isDig c2 = true)
    (h3 : isDig c3 = true) (h4 : isDig c4 = true) :
    altY (c1 :: c2 :: c3 :: c4 :: r) =
      [(((charDigit c1 * 10 + charDigit c2) * 10 + charDigit c3) * 10 + charDigit c4, r)] := by
  rw [altY, if_pos ⟨h1, h2, h3, h4⟩]

/-- On a zero-padded month between 01 and 12, the first `%m` candidate
is the two-digit value. -/
theorem altM_canon (c1 c2 : Char) (r : List Char)
    (h1 : isDig c1 = true) (h2 : isDig c2 = true)
    (hlo : 1 ≤ charDigit c1 * 10 + charDigit c2)
    (hhi : charDigit c1 * 10 + charDigit c2 ≤ 12) :
    ∃ tail, altM (c1 :: c2 :: r) = (charDigit c1 * 10 + charDigit c2, r) :: tail := by
  have hb1 := isDig_bounds h1
  have hb2 := isDig_bounds h2
  simp only [charDigit] at hlo hhi
  have hc : c1.toNat = 48 ∨ c1.toNat = 49 := by omega
  rcases hc with hc | hc
  · refine ⟨[], ?_⟩
    rw [altM, if_neg (by omega), if_pos (by omega), if_neg (by omega)]
    have hv : charDigit c1 * 10 + charDigit c2 = charDigit c2 := by
      simp only [charDigit]
      omega
    rw [hv]
    simp
  · refine ⟨[(charDigit c1, c2 :: r)], ?_⟩
    rw [altM, if_pos (by omega), if_neg (by omega), if_pos (by omega)]
    have hv : charDigit c1 * 10 + charDigit c2 = 10 + charDigit c2 := by
      simp only [charDigit]
      omega
    rw [hv]
    simp

/-- On a zero-padded day between 01 and 31, the first `%d` candidate is
the two-digit value. -/
theorem altD_canon (c1 c2 : Char) (r : List Char)
    (h1 : isDig c1 = true) (h2 : isDig c2 = true)
    (hlo : 1 ≤ charDigit c1 * 10 + charDigit c2)
    (hhi : charDigit c1 * 10 + charDigit c2 ≤ 31) :
    ∃ tail, altD (c1 :: c2 :: r) = (charDigit c1 * 10 + charDigit c2, r) :: tail := by
  have hb1 := isDig_bounds h1
  have hb2 := isDig_bounds h2
  simp only [charDigit] at hlo hhi
  have hc : c1.toNat = 48 ∨ (c1.toNat = 49 ∨ c1.toNat = 50) ∨ c1.toNat = 51 := by omega
  rcases hc with hc | hc | hc
  · refine ⟨[], ?_⟩
    rw [altD, if_neg (by omega), if_neg (by rintro ⟨hx, -⟩; omega),
      if_pos (by omega), if_neg (by omega)]
    have hv : charDigit c1 * 10 + charDigit c2 = charDigit c2 := by
      simp only [charDigit]
      omega
    rw [hv]
    simp
  · refine ⟨[(charDigit c1, c2 :: r)], ?_⟩
    rw [altD, if_neg (by rintro ⟨hx, -⟩; omega), if_pos ⟨by omega, h2⟩,
      if_neg (by rintro ⟨hx, -⟩; omega), if_pos (by omega)]
    simp
  · refine ⟨[(charDigit c1, c2 :: r)], ?_⟩
    rw [altD, if_pos (by omega), if_neg (by rintro ⟨hx, -⟩; omega),
      if_neg (by rintro ⟨hx, -⟩; omega), if_pos (by omega)]
    have hv : charDigit c1 * 10 + charDigit c2 = 30 + charDigit c2 := by
      simp only [charDigit]
      omega
    rw [hv]
    simp

/-- On a zero-padded hour between 00 and 23, the first `%H` candidate
is the two-digit value. -/
theorem altH_canon (c1 c2 : Char) (r : List Char)
    (h1 : isDig c1 = true) (h2 : isDig c2 = true)
    (hhi : charDigit c1 * 10 + charDigit c2 ≤ 23) :
    ∃ tail, altH (c1 :: c2 :: r) = (charDigit c1 * 10 + charDigit c2, r) :: tail := by
  have hb1 := isDig_bounds h1
  have hb2 := isDig_bounds h2
  simp only [charDigit] at hhi
  have hc : (c1.toNat = 48 ∨ c1.toNat = 49) ∨ c1.toNat = 50 := by omega
  rcases hc with hc | hc
  · refine ⟨[(charDigit c1, c2 :: r)], ?_⟩
    rw [altH, if_neg (by rintro ⟨hx, -⟩; omega), if_pos ⟨hc, h2⟩, if_pos h1]
    simp
  · refine ⟨[(charDigit c1, c2 :: r)], ?_⟩
    rw [altH, if_pos (by omega), if_neg (by rintro ⟨hx, -⟩; omega), if_pos h1]
    have hv : charDigit c1 * 10 + charDigit c2 = 20 + charDigit c2 := by
      simp only [charDigit]
      omega
    rw [hv]
    simp

/-- On a zero-padded minute between 00 and 59, the first `%M` candidate
is the two-digit value. -/
theorem altMin_canon (c1 c2 : Char) (r : List Char)
    (h1 : isDig c1 = true) (h2 : isDig c2 = true)
    (hhi : charDigit c1 * 10 + charDigit c2 ≤ 59) :
    ∃ tail, altMin (c1 :: c2 :: r) = (charDigit c1 * 10 + charDigit c2, r) :: tail := by
  have hb1 := isDig_bounds h1
  have hb2 := isDig_bounds h2
  simp only [charDigit] at hhi
  refine ⟨[(charDigit c1, c2 :: r)], ?_⟩
  rw [altMin, if_pos ⟨by omega, by omega, h2⟩, if_pos h1]
  simp

/-- On a zero-padded second between 00 and 59, the first `%S` candidate
is the two-digit value. -/
theorem altS_canon (c1 c2 : Char) (r : List Char)
    (h1 : isDig c1 = true) (h2 : isDig c2 = true)
    (hhi : charDigit c1 * 10 + charDigit c2 ≤ 59) :
    ∃ tail, altS (c1 :: c2 :: r) = (charDigit c1 * 10 + charDigit c2, r) :: tail := by
  have hb1 := isDig_bounds h1
  have hb2 := isDig_bounds h2
  simp only [charDigit] at hhi
  refine ⟨[(charDigit c1, c2 :: r)], ?_⟩
  rw [altS, if_neg (by rintro ⟨hx, -⟩; omega), if_pos ⟨by omega, by omega, h2⟩,
    if_pos h1]
  simp

/-- The remainder of a `%Y` candidate is a suffix of its input. -/
theorem altY_rest_suffix (cs : List Char) (v : Nat) (rest : List Char)
    (h : (v, rest) ∈ altY cs) : rest <:+ cs := by
  match cs with
  | [] => simp [altY] at h
  | [c1] => simp [altY] at h
  | [c1, c2] => simp [altY] at h
  | [c1, c2, c3] => simp [altY] at h
  | c1 :: c2 :: c3 :: c4 :: r =>
      rw [altY] at h
      have hp := mem_if_singleton _ _ _ h
      injection hp with hv hr
      rw [hr]
      exact ((((List.suffix_cons c4 r).trans (List.suffix_cons c3 _)).trans
        (List.suffix_cons c2 _)).trans (List.suffix_cons c1 _))

/-- The remainder of a `%m` candidate is a suffix of its input. -/
theorem altM_rest_suffix (cs : List Char) (v : Nat) (rest : List Char)
    (h : (v, rest) ∈ altM cs) : rest <:+ cs := by
  match cs with
  | [] => simp [altM] at h
  | [c1] =>
      rw [altM] at h
      have hp := mem_if_singleton _ _ _ h
      injection hp with hv hr
      rw [hr]
      exact List.nil_suffix
  | c1 :: c2 :: r =>
      rw [altM] at h
      rcases List.mem_append.mp h with h | h
      · rcases List.mem_append.mp h with h | h <;>
          · have hp := mem_if_singleton _ _ _ h
            injection hp with hv hr
            rw [hr]
            exact (List.suffix_cons c2 r).trans (List.suffix_cons c1 _)
      · have hp := mem_if_singleton _ _ _ h
        injection hp with hv hr
        rw [hr]
        exact List.suffix_cons c1 _

/-- The remainder of a `%d` candidate is a suffix of its input. -/
theorem altD_rest_suffix (cs : List Char) (v : Nat) (rest : List Char)
    (h : (v, rest) ∈ altD cs) : rest <:+ cs := by
  match cs with
  | [] => simp [altD] at h
  | [c1] =>
      rw [altD] at h
      have hp := mem_if_singleton _ _ _ h
      injection hp with hv hr
      rw [hr]
      exact List.nil_suffix
  | c1 :: c2 :: r =>
      rw [altD] at h
      rcases List.mem_append.mp h with h | h
      · rcases List.mem_append.mp h with h | h
        · rcases List.mem_append.mp h with h | h <;>
            · have hp := mem_if_singleton _ _ _ h
              injection hp with hv hr
              rw [hr]
              exact (List.suffix_cons c2 r).trans (List.suffix_cons c1 _)
        · have hp := mem_if_singleton _ _ _ h
          injection hp with hv hr
          rw [hr]
          exact (List.suffix_cons c2 r).trans (List.suffix_cons c1 _)
      · have hp := mem_if_singleton _ _ _ h
        injection hp with hv hr
        rw [hr]
        exact List.suffix_cons c1 _

/-- The remainder of a `%H` candidate is a suffix of its input. -/
theorem altH_rest_suffix (cs : List Char) (v : Nat) (rest : List Char)
    (h : (v, rest) ∈ altH cs) : rest <:+ cs := by
  match cs with
  | [] => simp [altH] at h
  | [c1] =>
      rw [altH] at h
      have hp := mem_if_singleton _ _ _ h
      injection hp with hv hr
      rw [hr]
      exact List.nil_suffix
  | c1 :: c2 :: r =>
      rw [altH] at h
      rcases List.mem_append.mp h with h | h
      · rcases List.mem_append.mp h with h | h <;>
          · have hp := mem_if_singleton _ _ _ h
            injection hp with hv hr
            rw [hr]
            exact (List.suffix_cons c2 r).trans (List.suffix_cons c1 _)
      · have hp := mem_if_singleton _ _ _ h
        injection hp with hv hr
        rw [hr]
        exact List.suffix_cons c1 _

/-- The remainder of a `%M` candidate is a suffix of its input. -/
theorem altMin_rest_suffix (cs : List Char) (v : Nat) (rest : List Char)
    (h : (v, rest) ∈ altMin cs) : rest <:+ cs := by
  match cs with
  | [] => simp [altMin] at h
  | [c1] =>
      rw [altMin] at h
      have hp := mem_if_singleton _ _ _ h
      injection hp with hv hr
      rw [hr]
      exact List.nil_suffix
  | c1 :: c2 :: r =>
      rw [altMin] at h
      rcases List.mem_append.mp h with h | h
      · have hp := mem_if_singleton _ _ _ h
        injection hp with hv hr
        rw [hr]
        exact (List.suffix_cons c2 r).trans (List.suffix_cons c1 _)
      · have hp := mem_if_singleton _ _ _ h
        injection hp with hv hr
        rw [hr]
        exact List.suffix_cons c1 _

/-- Any successful match of the pattern consumed a literal underscore,
so an input without one cannot match. -/
theorem matchFmt_underscore (cs : List Char)
    (x : (Nat × Nat × Nat × Nat × Nat × Nat) × List Char)
    (h : matchFmt cs = some x) : '_' ∈ cs := by
  rw [matchFmt] at h
  obtain ⟨yr, hy, h⟩ := firstSome_some _ _ _ h
  obtain ⟨mr, hm, h⟩ := firstSome_some _ _ _ h
  obtain ⟨dr, hd, h⟩ := firstSome_some _ _ _ h
  obtain ⟨yv, yrest⟩ := yr
  obtain ⟨mv, mrest⟩ := mr
  obtain ⟨dv, drest⟩ := dr
  dsimp only at h hy hm hd
  have hs1 : yrest <:+ cs := altY_rest_suffix cs yv yrest hy
  have hs2 : mrest <:+ yrest := altM_rest_suffix yrest mv mrest hm
  have hs3 : drest <:+ mrest := altD_rest_suffix mrest dv drest hd
  rcases drest with _ | ⟨c, r4⟩
  · exact Option.noConfusion h
  · have hmem : '_' ∈ c :: r4 := by
      by_cases hc : c = '_'
      · rw [hc]
        exact List.mem_cons_self _ _
      · exfalso
        split at h
        · rename_i r4x heq
          injection heq with h1 h2
          exact hc h1
        · exact Option.noConfusion h
    exact hs1.subset (hs2.subset (hs3.subset hmem))

/-- A string without the underscore separator is rejected by the
faithful parser. -/
theorem strptimePy_no_underscore (cs : List Char) (h : '_' ∉ cs) :
    strptimePy cs = none := by
  cases hmf : matchFmt cs with
  | none => simp [strptimePy, hmf]
  | some x => exact absurd (matchFmt_underscore cs x hmf) h

/-- On a canonical format substring with year at least 1, the faithful
parser succeeds and returns exactly the zero-padded field values: the
engine's ordered alternation picks the two-digit candidate of every
field, consuming the whole string, and `datetime`'s validation passes. -/
theorem strptimePy_canonical (t : List Char) (hm : matchesFormat t)
    (hy : 1 ≤ fieldVal t 0 4) :
    strptimePy t = some ⟨fieldVal t 0 4, fieldVal t 4 2, fieldVal t 6 2,
      fieldVal t 9 2, fieldVal t 11 2, fieldVal t 13 2⟩ := by
  obtain ⟨a, b, rfl, ha, hb, hda, hdb, r1, r2, r3, r4, r5, r6, r7⟩ := hm
  obtain ⟨e1, e2, e3, e4, e5, e6⟩ := fieldVal_shape a b ha hb
  rw [e1] at hy
  rw [e1, e2, e3, e4, e5, e6]
  obtain ⟨a0, a, rfl, ha7⟩ := cons_of_length_succ a 7 ha
  obtain ⟨a1, a, rfl, ha6⟩ := cons_of_length_succ a 6 ha7
  obtain ⟨a2, a, rfl, ha5⟩ := cons_of_length_succ a 5 ha6
  obtain ⟨a3, a, rfl, ha4⟩ := cons_of_length_succ a 4 ha5
  obtain ⟨a4, a, rfl, ha3⟩ := cons_of_length_succ a 3 ha4
  obtain ⟨a5, a, rfl, ha2⟩ := cons_of_length_succ a 2 ha3
  obtain ⟨a6, a, rfl, ha1⟩ := cons_of_length_succ a 1 ha2
  obtain ⟨a7, a, rfl, ha0⟩ := cons_of_length_succ a 0 ha1
  obtain rfl := List.length_eq_zero.mp ha0
  obtain ⟨b0, b, rfl, hb5⟩ := cons_of_length_succ b 5 hb
  obtain ⟨b1, b, rfl, hb4⟩ := cons_of_length_succ b 4 hb5
  obtain ⟨b2, b, rfl, hb3⟩ := cons_of_length_succ b 3 hb4
  obtain ⟨b3, b, rfl, hb2⟩ := cons_of_length_succ b 2 hb3
  obtain ⟨b4, b, rfl, hb1⟩ := cons_of_length_succ b 1 hb2
  obtain ⟨b5, b, rfl, hb0⟩ := cons_of_length_succ b 0 hb1
  obtain rfl := List.length_eq_zero.mp hb0
  have d0 : isDig a0 = true := hda a0 (by simp)
  have d1 : isDig a1 = true := hda a1 (by simp)
  have d2 : isDig a2 = true := hda a2 (by simp)
  have d3 : isDig a3 = true := hda a3 (by simp)
  have d4 : isDig a4 = true := hda a4 (by simp)
  have d5 : isDig a5 = true := hda a5 (by simp)
  have d6 : isDig a6 = true := hda a6 (by simp)
  have d7 : isDig a7 = true := hda a7 (by simp)
  have f0 : isDig b0 = true := hdb b0 (by simp)
  have f1 : isDig b1 = true := hdb b1 (by simp)
  have f2 : isDig b2 = true := hdb b2 (by simp)
  have f3 : isDig b3 = true := hdb b3 (by simp)
  have f4 : isDig b4 = true := hdb b4 (by simp)
  have f5 : isDig b5 = true := hdb b5 (by simp)
  have s1 : ([a0, a1, a2, a3, a4, a5, a6, a7] : List Char).take 4 = [a0, a1, a2, a3] := rfl
  have s2 : (([a0, a1, a2, a3, a4, a5, a6, a7] : List Char).drop 4).take 2 = [a4, a5] := rfl
  have s3 : ([a0, a1, a2, a3, a4, a5, a6, a7] : List Char).drop 6 = [a6, a7] := rfl
  have s4 : ([b0, b1, b2, b3, b4, b5] : List Char).take 2 = [b0, b1] := rfl
  have s5 : (([b0, b1, b2, b3, b4, b5] : List Char).drop 2).take 2 = [b2, b3] := rfl
  have s6 : ([b0, b1, b2, b3, b4, b5] : List Char).drop 4 = [b4, b5] := rfl
  simp only [s1, s2, s3, s4, s5, s6, digitsVal_two, digitsVal_four]
    at r1 r2 r3 r4 r5 r6 r7 hy ⊢
  have hd31 : charDigit a6 * 10 + charDigit a7 ≤ 31 :=
    le_trans r4 (daysInMonth_le_31 _ _)
  have hY := altY_canon a0 a1 a2 a3
    (a4 :: a5 :: a6 :: a7 :: '_' :: b0 :: b1 :: b2 :: b3 :: b4 :: b5 :: []) d0 d1 d2 d3
  obtain ⟨tM, hMm⟩ := altM_canon a4 a5
    (a6 :: a7 :: '_' :: b0 :: b1 :: b2 :: b3 :: b4 :: b5 :: []) d4 d5 r1 r2
  obtain ⟨tD, hDd⟩ := altD_canon a6 a7
    ('_' :: b0 :: b1 :: b2 :: b3 :: b4 :: b5 :: []) d6 d7 r3 hd31
  obtain ⟨tH, hHh⟩ := altH_canon b0 b1 (b2 :: b3 :: b4 :: b5 :: []) f0 f1 r5
  obtain ⟨tN, hNn⟩ := altMin_canon b2 b3 (b4 :: b5 :: []) f2 f3 r6
  obtain ⟨tS, hSs⟩ := altS_canon b4 b5 [] f4 f5 r7
  simp only [List.cons_append, List.nil_append]
  have hmf : matchFmt (a0 :: a1 :: a2 :: a3 :: a4 :: a5 :: a6 :: a7 :: '_' ::
      b0 :: b1 :: b2 :: b3 :: b4 :: b5 :: []) =
      some ((((charDigit a0 * 10 + charDigit a1) * 10 + charDigit a2) * 10 + charDigit a3,
        charDigit a4 * 10 + charDigit a5,
        charDigit a6 * 10 + charDigit a7,
        charDigit b0 * 10 + charDigit b1,
        charDigit b2 * 10 + charDigit b3,
        charDigit b4 * 10 + charDigit b5), []) := by
    simp only [matchFmt, hY, hMm, hDd, hHh, hNn, hSs, firstSome]
  simp only [strptimePy, hmf]
  rw [if_pos trivial, if_pos ⟨hy, r4, r7⟩]

/-- Filename whose timestamp substring is one digit short of the
canonical width: fourteen characters at indices 17 through 30. -/
def c8flexPath : List Char := "B00000001_ABCDEF_2023112_103000".data

/-- Filename with a canonical fifteen-character timestamp substring. -/
def c8okPath : List Char := "B00000001_ABCDEF_20231127_103000E.JPG".data

/-- C8 fails as stated: this filename's timestamp substring has only
fourteen characters, so it does not match the fixed-width format
`"%Y%m%d_%H%M%S"`, yet the faithful `strptime` accepts it silently as
2023-11-02 10:30:00 instead of raising: the flexible widths of the
`%m`/`%d` patterns absorb the missing digit and reinterpret the
string. -/
theorem notebook_timestamp_extraction_counterexample :
    ¬ matchesFormat (tsSlice c8flexPath) ∧
      get_img_time_py c8flexPath = some ⟨2023, 11, 2, 10, 30, 0⟩ :=
  ⟨fun hm => absurd (matchesFormat_length _ hm) (by decide), by decide⟩

/-- C8 amended: the capture timestamp is extracted from the filename
characters at indices 17 through 31 and parsed with
`datetime.strptime` at format `"%Y%m%d_%H%M%S"`; a substring in the
canonical zero-padded form with a valid calendar date and year at
least 1 always parses to its denoted timestamp, and a substring that
`strptime`'s grammar cannot match at all — for instance one missing
the underscore separator — raises an error; but a deviation from the
fixed width is not guaranteed to raise, since the flexible field
widths can silently accept it. -/
theorem notebook_timestamp_extraction_flexible (fname : List Char) :
    (matchesFormat (tsSlice fname) → 1 ≤ fieldVal (tsSlice fname) 0 4 →
      get_img_time_py fname = some ⟨fieldVal (tsSlice fname) 0 4,
        fieldVal (tsSlice fname) 4 2, fieldVal (tsSlice fname) 6 2,
        fieldVal (tsSlice fname) 9 2, fieldVal (tsSlice fname) 11 2,
        fieldVal (tsSlice fname) 13 2⟩) ∧
    ('_' ∉ tsSlice fname → get_img_time_py fname = none) :=
  ⟨fun hm hy => strptimePy_canonical (tsSlice fname) hm hy,
   fun hu => strptimePy_no_underscore (tsSlice fname) hu⟩

/-- Witness for the amended C8 on a concrete canonical filename. -/
theorem notebook_timestamp_extraction_flexible_witness :
    get_img_time_py c8okPath = some ⟨2023, 11, 27, 10, 30, 0⟩ :=
  ((notebook_timestamp_extraction_flexible c8okPath).1
    ⟨"20231127".data, "103000".data, by decide, by decide, by decide, by decide,
      by decide, by decide, by decide, by decide, by decide, by decide, by decide,
      by decide⟩ (by decide)).trans (by decide)

example : strptimePy "20231127_103000".data = some ⟨2023, 11, 27, 10, 30, 0⟩ := by decide

example : strptimePy "2023112_103000".data = some ⟨2023, 11, 2, 10, 30, 0⟩ := by decide

example : strptimePy "0231127_103000".data = some ⟨231, 12, 7, 10, 30, 0⟩ := by decide

example : strptimePy "00000101_000000".data = none := by decide

example : strptimePy "20230231_103000".data = none := by decide

example : strptimePy "20231127_103060".data = none := by decide

example : strptimePy "20231127103000".data = none := by decide
